import Mathlib

/-!
Verification of the core of `src/tools/fracTravel2000/FTRAVEL.C`
(GNU GPL Fractal Traveller v1.00).

The C source is shallowly embedded below.  `double` arithmetic is modelled
by `ℚ`; the C `int` counters and pixel coordinates are modelled by `ℕ`
(they are nonnegative and far from overflow in every reachable
configuration).  Loops are translated to structural recursion on an
explicit fuel argument that is always at least the number of iterations
the C loop performs, so every definition is executable by kernel
reduction.
-/

/-- `#define ipp 0xFF` : the field-rendering iteration cap. -/
def ipp : ℕ := 0xFF

/-- `#define orbit_iter_limit 0xFFF` : the orbit-tracing iteration cap. -/
def orbit_iter_limit : ℕ := 0xFFF

/-! ### Escape-time iterators (`mandel_iterator`, `julia_iterator`) -/

/-- The loop of `mandel_iterator`:
`while ( X*X+Y*Y <= 4 && ++i < ipp ) { oX = X; X = X*X-Y*Y+x; Y = 2*oX*Y+y; }`.
`x, y` are the starting point (also the added constant), `X, Y` the current
iterate, `i` the counter.  The fuel only bounds the recursion depth: the
loop body runs at most `ipp - 1` times because of the `++i < ipp` test,
so fuel `ipp` (used by `mandel_iterator`) is never exhausted. -/
def mandelGo (x y : ℚ) : ℕ → ℚ → ℚ → ℕ → ℕ
  | 0, _, _, i => i
  | fuel + 1, X, Y, i =>
    if X * X + Y * Y ≤ 4 then
      if i + 1 < ipp then mandelGo x y fuel (X * X - Y * Y + x) (2 * X * Y + y) (i + 1)
      else i + 1
    else i

/-- `int mandel_iterator( double x, double y )` from FTRAVEL.C. -/
def mandel_iterator (x y : ℚ) : ℕ :=
  mandelGo x y ipp x y 0

/-- The loop of `julia_iterator`; identical to `mandelGo` except that the
added constant is the fixed parameter `(cx, cy)` (the C globals) instead of
the starting point. -/
def juliaGo (cx cy : ℚ) : ℕ → ℚ → ℚ → ℕ → ℕ
  | 0, _, _, i => i
  | fuel + 1, X, Y, i =>
    if X * X + Y * Y ≤ 4 then
      if i + 1 < ipp then juliaGo cx cy fuel (X * X - Y * Y + cx) (2 * X * Y + cy) (i + 1)
      else i + 1
    else i

/-- `int julia_iterator( double x, double y )` from FTRAVEL.C, with the
globals `cx, cy` passed explicitly. -/
def julia_iterator (cx cy x y : ℚ) : ℕ :=
  juliaGo cx cy ipp x y 0

/-- The orbit of the quadratic map `z ↦ z² + c` started at `z₀ = (x, y)`
with `c = (cx, cy)`, written with the same expanded real arithmetic as the
C macros `Re_Z2` / `Im_Z2`. -/
def quadOrbit (cx cy x y : ℚ) : ℕ → ℚ × ℚ
  | 0 => (x, y)
  | n + 1 =>
    let z := quadOrbit cx cy x y n
    (z.1 * z.1 - z.2 * z.2 + cx, 2 * z.1 * z.2 + cy)

/-- Squared magnitude of a point, as tested by `X*X+Y*Y <= 4`. -/
def magSq (z : ℚ × ℚ) : ℚ := z.1 * z.1 + z.2 * z.2

/-! ### Viewport aspect correction (head of `fly()`) -/

/-- The viewport globals of FTRAVEL.C: bounds `xs xe ys ye` and per-pixel
scales `xu yu`. -/
structure Viewport where
  xs : ℚ
  xe : ℚ
  ys : ℚ
  ye : ℚ
  xu : ℚ
  yu : ℚ
deriving DecidableEq, Repr

/-- The recompute/aspect-correction block at the top of `fly()`'s loop:
`xu = (xe-xs)/Xmax; yu = (ye-ys)/Ymax;`
`if ( xu > yu ) { yu = xu; ye = yu*Ymax+ys; } else { xu = yu; xe = xu*Xmax+xs; }`
with the resolution `Xmax × Ymax` passed explicitly (the C macros fix it
to 1024 × 768). -/
def recompute (v : Viewport) (Xmax Ymax : ℕ) : Viewport :=
  let xu := (v.xe - v.xs) / (Xmax : ℚ)
  let yu := (v.ye - v.ys) / (Ymax : ℚ)
  if xu > yu then
    { v with xu := xu, yu := xu, ye := xu * (Ymax : ℚ) + v.ys }
  else
    { v with xu := yu, yu := yu, xe := yu * (Xmax : ℚ) + v.xs }

/-- The startup viewport: `xs = -2, xe = 2, ys = -2, ye = 2` with the
scale globals zero-initialised. -/
def defaultViewport : Viewport :=
  { xs := -2, xe := 2, ys := -2, ye := 2, xu := 0, yu := 0 }

/-! ### Palette rotation (`rot_forward_pal`, `rot_backward_pal`) -/

/-- One RGB palette entry (Allegro `RGB`). -/
structure RGB where
  r : ℕ
  g : ℕ
  b : ℕ
deriving DecidableEq, Repr

/-- One tick of `rot_forward_pal`: shift every entry up by one
(`for i=0xFF..1: pal[i] = pal[i-1]`) and put the saved triple at
position 0.  The forward loop refreshes its saved triple from
`pal[0xFF]` at the end of every tick body, so at the start of each tick
the save equals the current entry `0xFF`: every forward tick is this
pure cyclic shift of the current table, and `n` ticks are its `n`-fold
iterate. -/
def rot_forward_pal (p : List RGB) : List RGB :=
  match p.getLast? with
  | none => p
  | some last => last :: p.dropLast

/-- One body of the tick loop of `rot_backward_pal`: shift every entry
down by one (`for i=0..0xFE: pal[i] = pal[i+1]`, reads see the original
values) and write the invocation-saved triple at position `0xFF`.  Unlike
`rot_forward_pal`, whose loop refreshes its saved triple from `pal[0xFF]`
after every shift, the backward loop never reassigns `pr, pg, pb`, so
`saved` stays whatever entry 0 held when the invocation was entered. -/
def rot_backward_tick (saved : RGB) : List RGB → List RGB
  | [] => []
  | _ :: l => l ++ [saved]

/-- `void rot_backward_pal()` running for `n` timer ticks: the triple
`pr = pal[0].r, pg = pal[0].g, pb = pal[0].b` is read once at entry, and
each of the `n` ticks shifts the table down and writes that same stale
triple at position `0xFF`. -/
def rot_backward_pal (n : ℕ) (p : List RGB) : List RGB :=
  match p with
  | [] => []
  | a :: l => (rot_backward_tick a)^[n] (a :: l)

/-! ### Orbit tracer colors (`orbit_iterator`) -/

/-- The priming loop of `orbit_iterator`: same dynamics as the drawing
loop, counting `itr` up to `orbit_iter_limit`.  Start point is `(cx, cy)`
itself. -/
def orbitPrimeGo (cx cy : ℚ) : ℕ → ℚ → ℚ → ℕ → ℕ
  | 0, _, _, itr => itr
  | fuel + 1, X, Y, itr =>
    if X * X + Y * Y ≤ 4 then
      if itr + 1 < orbit_iter_limit then
        orbitPrimeGo cx cy fuel (X * X - Y * Y + cx) (2 * X * Y + cy) (itr + 1)
      else itr + 1
    else itr

/-- `itr` as measured by the first loop of `orbit_iterator`. -/
def orbitPrime (cx cy : ℚ) : ℕ :=
  orbitPrimeGo cx cy orbit_iter_limit cx cy 0

/-- The drawing loop of `orbit_iterator`, recording the color index `col`
passed to `putpixel` / `line` at each executed body:
`col = (i<<8)/itr` when `pal_gradient` is set, else `col = 0xFF`. -/
def orbitColsGo (gradient : Bool) (cx cy : ℚ) (itr : ℕ) :
    ℕ → ℚ → ℚ → ℕ → List ℕ
  | 0, _, _, _ => []
  | fuel + 1, X, Y, i =>
    if X * X + Y * Y ≤ 4 then
      if i + 1 < orbit_iter_limit then
        (if gradient then ((i + 1) <<< 8) / itr else 0xFF) ::
          orbitColsGo gradient cx cy itr fuel (X * X - Y * Y + cx) (2 * X * Y + cy) (i + 1)
      else []
    else []

/-- The sequence of color indices `orbit_iterator` hands to the display
primitives for parameter `(cx, cy)`. -/
def orbitColors (gradient : Bool) (cx cy : ℚ) : List ℕ :=
  orbitColsGo gradient cx cy (orbitPrime cx cy) orbit_iter_limit cx cy 0

/-! ### Helper lemmas: iterator loop steps -/

theorem mandelGo_succ_of_escape (x y X Y : ℚ) (fuel i : ℕ)
    (h : ¬ X * X + Y * Y ≤ 4) :
    mandelGo x y (fuel + 1) X Y i = i := by
  simp [mandelGo, h]

theorem mandelGo_succ_of_cont (x y X Y : ℚ) (fuel i : ℕ)
    (h : X * X + Y * Y ≤ 4) (hi : i + 1 < ipp) :
    mandelGo x y (fuel + 1) X Y i =
      mandelGo x y fuel (X * X - Y * Y + x) (2 * X * Y + y) (i + 1) := by
  simp [mandelGo, h, hi]

theorem mandelGo_succ_of_cap (x y X Y : ℚ) (fuel i : ℕ)
    (h : X * X + Y * Y ≤ 4) (hi : ¬ i + 1 < ipp) :
    mandelGo x y (fuel + 1) X Y i = i + 1 := by
  simp [mandelGo, h, hi]

/-- The loop of `mandel_iterator`, started at step `m` on the `m`-th
iterate with the remaining fuel, returns the first escape index `n`
whenever `n ≤ ipp`. -/
theorem mandelGo_first_escape (x y : ℚ) (n : ℕ) (hn : n ≤ ipp)
    (hesc : 4 < magSq (quadOrbit x y x y n))
    (hpre : ∀ m, m < n → magSq (quadOrbit x y x y m) ≤ 4) :
    ∀ fuel m, fuel + m = ipp → m ≤ n →
      mandelGo x y fuel (quadOrbit x y x y m).1 (quadOrbit x y x y m).2 m = n := by
  intro fuel
  induction fuel with
  | zero =>
    intro m h0 hmn
    have hm : m = ipp := by omega
    have : n = ipp := by omega
    simp [mandelGo]
    omega
  | succ fuel ih =>
    intro m hfm hmn
    rcases eq_or_lt_of_le hmn with heq | hlt
    · subst heq
      have h4 : ¬ (quadOrbit x y x y m).1 * (quadOrbit x y x y m).1 +
          (quadOrbit x y x y m).2 * (quadOrbit x y x y m).2 ≤ 4 := by
        simpa [magSq] using not_le_of_lt hesc
      rw [mandelGo_succ_of_escape _ _ _ _ _ _ h4]
    · have h4 : (quadOrbit x y x y m).1 * (quadOrbit x y x y m).1 +
          (quadOrbit x y x y m).2 * (quadOrbit x y x y m).2 ≤ 4 := by
        simpa [magSq] using hpre m hlt
      by_cases hi : m + 1 < ipp
      · rw [mandelGo_succ_of_cont _ _ _ _ _ _ h4 hi]
        exact ih (m + 1) (by omega) (by omega)
      · have hm1 : m + 1 = ipp := by omega
        have hn1 : n = ipp := by omega
        rw [mandelGo_succ_of_cap _ _ _ _ _ _ h4 hi]
        omega

/-- The counter of `mandel_iterator`'s loop never exceeds `ipp`. -/
theorem mandelGo_le (x y : ℚ) :
    ∀ fuel (X Y : ℚ) (i : ℕ), i + 1 ≤ ipp → mandelGo x y fuel X Y i ≤ ipp := by
  intro fuel
  induction fuel with
  | zero => intro X Y i hi; simpa [mandelGo] using by omega
  | succ fuel ih =>
    intro X Y i hi
    by_cases h4 : X * X + Y * Y ≤ 4
    · by_cases hi2 : i + 1 < ipp
      · rw [mandelGo_succ_of_cont _ _ _ _ _ _ h4 hi2]
        exact ih _ _ _ (by omega)
      · rw [mandelGo_succ_of_cap _ _ _ _ _ _ h4 hi2]
        omega
    · rw [mandelGo_succ_of_escape _ _ _ _ _ _ h4]
      omega

/-- The counter of `julia_iterator`'s loop never exceeds `ipp`. -/
theorem juliaGo_le (cx cy : ℚ) :
    ∀ fuel (X Y : ℚ) (i : ℕ), i + 1 ≤ ipp → juliaGo cx cy fuel X Y i ≤ ipp := by
  intro fuel
  induction fuel with
  | zero => intro X Y i hi; simpa [juliaGo] using by omega
  | succ fuel ih =>
    intro X Y i hi
    by_cases h4 : X * X + Y * Y ≤ 4
    · by_cases hi2 : i + 1 < ipp
      · simp only [juliaGo, h4, hi2, if_true, if_pos]
        exact ih _ _ _ (by omega)
      · simp [juliaGo, h4, hi2]
        omega
    · simp [juliaGo, h4]
      omega

/-- On the all-zero orbit of the starting point `(0,0)` the loop of
`mandel_iterator` runs to the cap and returns `ipp`. -/
theorem mandelGo_zero :
    ∀ fuel i, ipp ≤ fuel + i → i + 1 ≤ ipp → mandelGo 0 0 fuel 0 0 i = ipp := by
  intro fuel
  induction fuel with
  | zero => intro i h0 h1; omega
  | succ fuel ih =>
    intro i h0 h1
    have h4 : (0 : ℚ) * 0 + 0 * 0 ≤ 4 := by norm_num
    by_cases hi : i + 1 < ipp
    · rw [mandelGo_succ_of_cont _ _ _ _ _ _ h4 hi]
      have harg : (0 : ℚ) * 0 - 0 * 0 + 0 = 0 := by norm_num
      have harg2 : 2 * (0 : ℚ) * 0 + 0 = 0 := by norm_num
      rw [harg, harg2]
      exact ih (i + 1) (by omega) (by omega)
    · rw [mandelGo_succ_of_cap _ _ _ _ _ _ h4 hi]
      omega

/-! ### C3: escape index of `mandel_iterator` -/

/-- C3 counterexample: the point `(3,0)` has `|point|² = 9 > 4`, yet
`mandel_iterator 3 0` returns 0, not 1 as claimed (the loop condition
fails before the counter is ever incremented). -/
theorem mandel_iterator_three_ne_one :
    4 < magSq (3, 0) ∧ mandel_iterator 3 0 ≠ 1 := by
  constructor
  · norm_num [magSq]
  · have h := mandelGo_succ_of_escape 3 0 3 0 (ipp - 1) 0
      (by norm_num)
    have : mandel_iterator 3 0 = 0 := h
    omega

/-- C3 (amended): under the Mandelbrot map, `mandel_iterator` returns the
exact step index `n` at which `|z|²` first exceeds 4 whenever `n ≤ ipp`;
for every point with `|point|² > 4` it returns 0 (the loop body never
runs); and `mandel_iterator (2,0) = 1`. -/
theorem mandel_iterator_escape_index :
    (∀ x y : ℚ, ∀ n : ℕ, n ≤ ipp →
        4 < magSq (quadOrbit x y x y n) →
        (∀ m, m < n → magSq (quadOrbit x y x y m) ≤ 4) →
        mandel_iterator x y = n) ∧
    (∀ x y : ℚ, 4 < magSq (x, y) → mandel_iterator x y = 0) ∧
    mandel_iterator 2 0 = 1 := by
  have main : ∀ x y : ℚ, ∀ n : ℕ, n ≤ ipp →
      4 < magSq (quadOrbit x y x y n) →
      (∀ m, m < n → magSq (quadOrbit x y x y m) ≤ 4) →
      mandel_iterator x y = n := by
    intro x y n hn hesc hpre
    have h := mandelGo_first_escape x y n hn hesc hpre ipp 0 (by omega) (by omega)
    simpa [mandel_iterator, quadOrbit] using h
  refine ⟨main, ?_, ?_⟩
  · intro x y h4
    exact main x y 0 (by norm_num [ipp]) (by simpa [quadOrbit] using h4)
      (by omega)
  · refine main 2 0 1 (by norm_num [ipp]) ?_ ?_
    · norm_num [quadOrbit, magSq]
    · intro m hm
      interval_cases m
      norm_num [quadOrbit, magSq]

/-- C3 witness: the amended theorem applied at the concrete point `(3,0)`
(already escaped, so the returned index is 0). -/
theorem mandel_iterator_escape_index_witness :
    mandel_iterator 3 0 = 0 :=
  mandel_iterator_escape_index.2.1 3 0 (by norm_num [magSq])

/-! ### C4: boundedness and saturation of the iterators -/

/-- C4 counterexample: the saturated value `mandel_iterator 0 0 = 255`
does not lie in the claimed range `[0, 255)`. -/
theorem mandel_iterator_zero_not_lt_255 :
    ¬ mandel_iterator 0 0 < 255 := by
  have h : mandel_iterator 0 0 = ipp := mandelGo_zero ipp 0 (by omega) (by norm_num [ipp])
  rw [h]
  norm_num [ipp]

/-- C4 (amended): every result of the field evaluators is a bounded
integer in `[0, 256)`, i.e. at most `255 = ipp`; the saturation value when
the point never escapes is `255` (cap − 1 for cap 256), as witnessed by
`mandel_iterator 0 0 = 255`. -/
theorem iterator_bounded_saturating :
    (∀ x y : ℚ, mandel_iterator x y ≤ 255) ∧
    (∀ cx cy x y : ℚ, julia_iterator cx cy x y ≤ 255) ∧
    mandel_iterator 0 0 = 255 := by
  refine ⟨?_, ?_, ?_⟩
  · intro x y
    simpa [ipp] using mandelGo_le x y ipp x y 0 (by norm_num [ipp])
  · intro cx cy x y
    simpa [ipp] using juliaGo_le cx cy ipp x y 0 (by norm_num [ipp])
  · simpa [ipp] using mandelGo_zero ipp 0 (by omega) (by norm_num [ipp])

/-! ### C5, C6: viewport aspect correction -/

/-- C5: for every non-degenerate starting bounds and positive resolution,
after `recompute` the two per-pixel scales are equal, the larger raw scale
wins, and the max bound of the axis whose raw scale was smaller is
recomputed as scale × resolution + min bound (the other bounds are kept). -/
theorem recompute_aspect (v : Viewport) (W H : ℕ)
    (hW : 0 < W) (hH : 0 < H) (hx : v.xs < v.xe) (hy : v.ys < v.ye) :
    (recompute v W H).xu = (recompute v W H).yu ∧
    (recompute v W H).xu = max ((v.xe - v.xs) / (W : ℚ)) ((v.ye - v.ys) / (H : ℚ)) ∧
    (if (v.xe - v.xs) / (W : ℚ) > (v.ye - v.ys) / (H : ℚ) then
      (recompute v W H).ye = (recompute v W H).yu * (H : ℚ) + v.ys ∧
      (recompute v W H).xs = v.xs ∧ (recompute v W H).xe = v.xe ∧
      (recompute v W H).ys = v.ys
    else
      (recompute v W H).xe = (recompute v W H).xu * (W : ℚ) + v.xs ∧
      (recompute v W H).xs = v.xs ∧ (recompute v W H).ys = v.ys ∧
      (recompute v W H).ye = v.ye) := by
  by_cases hgt : (v.xe - v.xs) / (W : ℚ) > (v.ye - v.ys) / (H : ℚ)
  · simp [recompute, hgt, max_eq_left (le_of_lt hgt)]
  · simp [recompute, hgt, max_eq_right (le_of_not_lt hgt)]

/-- C5 witness: the aspect-correction theorem applied to the startup
viewport `[-2,2]×[-2,2]` at the fixed resolution 1024 × 768. -/
theorem recompute_aspect_witness :
    (recompute defaultViewport 1024 768).xu = (recompute defaultViewport 1024 768).yu :=
  (recompute_aspect defaultViewport 1024 768 (by norm_num) (by norm_num)
    (by norm_num [defaultViewport]) (by norm_num [defaultViewport])).1

/-- C6 counterexample: starting from the default bounds `[-2,2]×[-2,2]` at
resolution 1024 × 768, `recompute` changes `xe` (xMax) from 2 to 10/3, so
it is not the case that `yMax` is the adjusted bound with the other three
bounds unchanged. -/
theorem recompute_default_changes_xe :
    (recompute defaultViewport 1024 768).xe ≠ defaultViewport.xe := by
  norm_num [recompute, defaultViewport]

/-- C6 (amended): starting from default bounds `[-2,2]×[-2,2]` at
resolution 1024×768, `recompute` adjusts `xMax` (not `yMax`): afterwards
`unitsPerPixelX = unitsPerPixelY = 1/192`, `xMax = unitsPerPixelX·1024 + xMin
= 10/3`, and the other three bounds `xMin`, `yMin`, `yMax` are unchanged. -/
theorem recompute_default_spec :
    (recompute defaultViewport 1024 768).xu = (recompute defaultViewport 1024 768).yu ∧
    (recompute defaultViewport 1024 768).xu = 1 / 192 ∧
    (recompute defaultViewport 1024 768).xe =
      (recompute defaultViewport 1024 768).xu * 1024 + defaultViewport.xs ∧
    (recompute defaultViewport 1024 768).xe = 10 / 3 ∧
    (recompute defaultViewport 1024 768).xs = defaultViewport.xs ∧
    (recompute defaultViewport 1024 768).ys = defaultViewport.ys ∧
    (recompute defaultViewport 1024 768).ye = defaultViewport.ye := by
  norm_num [recompute, defaultViewport]

/-! ### Adaptive rasterizer (`recursor`, `view`)

`rectfill` writes to the screen, and the color written never depends on
the current screen contents, so a run of the rasterizer is modelled as
the list of fill operations it performs, in order; the resulting screen
is obtained by replaying that list over a starting image. -/

/-- One `rectfill( screen, x, y, x+l-1, y+l-1, color )` call issued by
`recursor`: the block with origin `(x, y)`, edge length `l` and the given
color index. -/
structure Fill where
  x : ℕ
  y : ℕ
  l : ℕ
  color : ℕ
deriving DecidableEq, Repr

/-- The screen: a color index per pixel. -/
def Image : Type := ℕ → ℕ → ℕ

/-- Replay one fill: pixels from `(x, y)` to `(x+l-1, y+l-1)` inclusive
get the fill's color, as `rectfill` paints them. -/
def applyFill (img : Image) (fb : Fill) : Image :=
  fun px py =>
    if fb.x ≤ px ∧ px ≤ fb.x + fb.l - 1 ∧ fb.y ≤ py ∧ py ≤ fb.y + fb.l - 1 then
      fb.color
    else img px py

/-- Replay a list of fills in order (later fills overwrite earlier ones). -/
def applyFills (img : Image) (L : List Fill) : Image :=
  L.foldl applyFill img

/-- `void recursor( int x, int y, int l )`, with the globals made
explicit: `iterF` is `iter_function`, `xs ys xu yu` the viewport, `frag`
the global `frag_size`, `over` the first-pass flag, `tact` the timer tick
acting as the cancel flag (read as one stable value for the call).  The
fuel argument only bounds the recursion depth; every reachable call has
`l` a power of two multiple of `frag ≥ 1`, so the depth is at most
`log₂ l + 1 ≤ fuel` for the fuel `l` used at top level.  (When
`frag_size` is not on the halving chain of `l` the C function never
terminates; such configurations are unreachable from `view`.) -/
def recursorAux (iterF : ℚ → ℚ → ℕ) (xs ys xu yu : ℚ) (frag : ℕ)
    (over tact : Bool) : ℕ → ℕ → ℕ → ℕ → List Fill
  | 0, _, _, _ => []
  | fuel + 1, x, y, l =>
    if l = frag then
      if over = true ∨ x &&& ((l <<< 1) - 1) ≠ 0 ∨ y &&& ((l <<< 1) - 1) ≠ 0 then
        [⟨x, y, l, iterF (xs + (x : ℚ) * xu) (ys + (y : ℚ) * yu)⟩]
      else []
    else if tact then []
    else
      recursorAux iterF xs ys xu yu frag over tact fuel x y (l >>> 1) ++
      recursorAux iterF xs ys xu yu frag over tact fuel (x + (l >>> 1)) y (l >>> 1) ++
      recursorAux iterF xs ys xu yu frag over tact fuel (x + (l >>> 1)) (y + (l >>> 1)) (l >>> 1) ++
      recursorAux iterF xs ys xu yu frag over tact fuel x (y + (l >>> 1)) (l >>> 1)

/-- The tile origins of one `view` pass:
`for ( x=xxs; x<xxe; x+=step )` with `step = 0x10`.  The fuel
`stop - start` suffices for any positive step. -/
def tilesAux : ℕ → ℕ → ℕ → ℕ → List ℕ
  | 0, _, _, _ => []
  | fuel + 1, start, stop, step =>
    if start < stop then start :: tilesAux fuel (start + step) stop step else []

/-- `start, start+step, start+2*step, …` strictly below `stop`. -/
def tilesFrom (start stop step : ℕ) : List ℕ :=
  tilesAux (stop - start) start stop step

/-- `recursor( x, y, l )` itself, entered with fuel `l`: every reachable
call has `l` a power-of-two multiple of `frag_size`, so the recursion
depth `log₂ l + 1` never exceeds `l`. -/
def recursor (iterF : ℚ → ℚ → ℕ) (xs ys xu yu : ℚ) (frag : ℕ)
    (over tact : Bool) (x y l : ℕ) : List Fill :=
  recursorAux iterF xs ys xu yu frag over tact l x y l

/-- The pass list of `view`:
`for ( frag_size=step; frag_size>=1; frag_size>>=1, over=0 )` — the
sequence of `(frag_size, over)` pairs, starting from `frag_size = step`
with `over = 1`. -/
def passesAux : ℕ → ℕ → Bool → List (ℕ × Bool)
  | 0, _, _ => []
  | fuel + 1, frag, over =>
    if 1 ≤ frag then (frag, over) :: passesAux fuel (frag >>> 1) false else []

/-- One refinement pass of `view` over the tiling of the target
rectangle: `for y … for x … recursor( x, y, step )` with `step = 0x10`. -/
def viewPassFills (iterF : ℚ → ℚ → ℕ) (xs ys xu yu : ℚ) (frag : ℕ)
    (over tact : Bool) (xxs yys xxe yye : ℕ) : List Fill :=
  (tilesFrom yys yye 16).flatMap fun y =>
    (tilesFrom xxs xxe 16).flatMap fun x =>
      recursor iterF xs ys xu yu frag over tact x y 16

/-- `void view( int xxs, int yys, int xxe, int yye )`: all fills of a full
render, pass by pass (`over = 1` on the first pass only, `step = 0x10`). -/
def view (iterF : ℚ → ℚ → ℕ) (xs ys xu yu : ℚ) (tact : Bool)
    (xxs yys xxe yye : ℕ) : List Fill :=
  (passesAux 16 16 true).flatMap fun p =>
    viewPassFills iterF xs ys xu yu p.1 p.2 tact xxs yys xxe yye

/-! ### Helper lemmas: fills and replay -/

/-- The color the rasterizer computes for the pixel-block origin `(x, y)`:
`iter_function( xs+X*xu, ys+Y*yu )`. -/
def evalPix (iterF : ℚ → ℚ → ℕ) (xs ys xu yu : ℚ) (x y : ℕ) : ℕ :=
  iterF (xs + (x : ℚ) * xu) (ys + (y : ℚ) * yu)

/-- `fb` paints the pixel `(px, py)`. -/
def coversP (fb : Fill) (px py : ℕ) : Prop :=
  fb.x ≤ px ∧ px < fb.x + fb.l ∧ fb.y ≤ py ∧ py < fb.y + fb.l

instance coversPDecidable (fb : Fill) (px py : ℕ) : Decidable (coversP fb px py) :=
  inferInstanceAs (Decidable (_ ∧ _ ∧ _ ∧ _))

theorem applyFill_apply (img : Image) (fb : Fill) (px py : ℕ) (hl : 1 ≤ fb.l) :
    applyFill img fb px py = if coversP fb px py then fb.color else img px py := by
  have h : (fb.x ≤ px ∧ px ≤ fb.x + fb.l - 1 ∧ fb.y ≤ py ∧ py ≤ fb.y + fb.l - 1) ↔
      coversP fb px py := by
    unfold coversP
    omega
  simp only [applyFill, h]

theorem applyFills_append (img : Image) (L1 L2 : List Fill) :
    applyFills img (L1 ++ L2) = applyFills (applyFills img L1) L2 := by
  simp [applyFills, List.foldl_append]

theorem applyFills_not_covered (px py : ℕ) :
    ∀ (L : List Fill) (img : Image), (∀ fb ∈ L, 1 ≤ fb.l) →
      (∀ fb ∈ L, ¬ coversP fb px py) → applyFills img L px py = img px py := by
  intro L
  induction L with
  | nil => intro img _ _; rfl
  | cons fb L ih =>
    intro img hl hnc
    have h1 : applyFills img (fb :: L) = applyFills (applyFill img fb) L := rfl
    rw [h1, ih _ (fun g hg => hl g (by simp [hg])) (fun g hg => hnc g (by simp [hg]))]
    rw [applyFill_apply _ _ _ _ (hl fb (by simp))]
    rw [if_neg (hnc fb (by simp))]

/-- Replaying a fill list preserves and establishes a per-pixel property
`good` of the written color: if every fill that covers the pixel writes a
good color, then the final value is good as soon as either the initial
value is good or some fill covers the pixel. -/
theorem applyFills_good (good : ℕ → Prop) (px py : ℕ) :
    ∀ (L : List Fill) (img : Image), (∀ fb ∈ L, 1 ≤ fb.l) →
      (∀ fb ∈ L, coversP fb px py → good fb.color) →
      (good (img px py) ∨ ∃ fb ∈ L, coversP fb px py) →
      good (applyFills img L px py) := by
  intro L
  induction L with
  | nil =>
    intro img _ _ h
    rcases h with h | ⟨fb, hfb, _⟩
    · exact h
    · simp at hfb
  | cons fb L ih =>
    intro img hl hgood hstart
    have h1 : applyFills img (fb :: L) = applyFills (applyFill img fb) L := rfl
    rw [h1]
    refine ih _ (fun g hg => hl g (by simp [hg])) (fun g hg => hgood g (by simp [hg])) ?_
    by_cases hc : coversP fb px py
    · left
      rw [applyFill_apply _ _ _ _ (hl fb (by simp)), if_pos hc]
      exact hgood fb (by simp) hc
    · rcases hstart with h | ⟨g, hg, hcov⟩
      · left
        rw [applyFill_apply _ _ _ _ (hl fb (by simp)), if_neg hc]
        exact h
      · rcases List.mem_cons.mp hg with rfl | hg'
        · exact absurd hcov hc
        · exact Or.inr ⟨g, hg', hcov⟩

/-! ### Helper lemmas: the recursor -/

theorem recursorAux_terminal (F : ℚ → ℚ → ℕ) (xs ys xu yu : ℚ)
    (frag : ℕ) (over tact : Bool) (fuel x y : ℕ) :
    recursorAux F xs ys xu yu frag over tact (fuel + 1) x y frag =
      if over = true ∨ x &&& ((frag <<< 1) - 1) ≠ 0 ∨ y &&& ((frag <<< 1) - 1) ≠ 0 then
        [⟨x, y, frag, F (xs + (x : ℚ) * xu) (ys + (y : ℚ) * yu)⟩]
      else [] := by
  simp [recursorAux]

theorem recursorAux_subdivide (F : ℚ → ℚ → ℕ) (xs ys xu yu : ℚ)
    (frag : ℕ) (over : Bool) (fuel x y l : ℕ) (hne : l ≠ frag) :
    recursorAux F xs ys xu yu frag over false (fuel + 1) x y l =
      recursorAux F xs ys xu yu frag over false fuel x y (l >>> 1) ++
      recursorAux F xs ys xu yu frag over false fuel (x + (l >>> 1)) y (l >>> 1) ++
      recursorAux F xs ys xu yu frag over false fuel (x + (l >>> 1)) (y + (l >>> 1)) (l >>> 1) ++
      recursorAux F xs ys xu yu frag over false fuel x (y + (l >>> 1)) (l >>> 1) := by
  simp [recursorAux, hne]

theorem recursorAux_cancelled (F : ℚ → ℚ → ℕ) (xs ys xu yu : ℚ)
    (frag : ℕ) (over : Bool) (fuel x y l : ℕ) (hne : l ≠ frag) :
    recursorAux F xs ys xu yu frag over true (fuel + 1) x y l = [] := by
  simp [recursorAux, hne]

/-- The `&`-test of the skip rule, `x&((l<<1)-1)` with `l = 2^j`, is
exactly non-divisibility by twice the block edge. -/
theorem skipCond_iff (j x : ℕ) :
    x &&& ((2 ^ j <<< 1) - 1) ≠ 0 ↔ ¬ (2 * 2 ^ j ∣ x) := by
  have h1 : (2 ^ j) <<< 1 = 2 ^ (j + 1) := by
    rw [Nat.shiftLeft_eq, pow_one, pow_succ]
  have h2 : 2 * 2 ^ j = 2 ^ (j + 1) := by
    rw [pow_succ]; ring
  rw [h1, h2, Nat.and_pow_two_sub_one_eq_mod]
  rw [Ne, ← Nat.dvd_iff_mod_eq_zero]

/-- Every fill of a `recursor` call on a block with origin `(x, y)`,
edge `l = 2^k · frag` (`frag = 2^j`) and `frag`-aligned origin is a whole
terminal block: it has edge `frag`, a `frag`-aligned origin inside the
block, carries the `evalPix` color of its own origin, and — outside the
first pass — fails the coarser-grid alignment test of the skip rule. -/
theorem recursorAux_mem_spec (F : ℚ → ℚ → ℕ) (xs ys xu yu : ℚ)
    (frag j : ℕ) (hj : frag = 2 ^ j) (over tact : Bool) :
    ∀ (fuel k x y l : ℕ), l = 2 ^ k * frag → k < fuel → frag ∣ x → frag ∣ y →
      ∀ fb ∈ recursorAux F xs ys xu yu frag over tact fuel x y l,
        fb.l = frag ∧ frag ∣ fb.x ∧ frag ∣ fb.y ∧
        x ≤ fb.x ∧ fb.x + frag ≤ x + l ∧ y ≤ fb.y ∧ fb.y + frag ≤ y + l ∧
        fb.color = evalPix F xs ys xu yu fb.x fb.y ∧
        (over = false → ¬ (2 * frag ∣ fb.x ∧ 2 * frag ∣ fb.y)) := by
  subst hj
  intro fuel
  induction fuel with
  | zero => intro k x y l _ hk; exact absurd hk (by omega)
  | succ fuel ih =>
    intro k x y l hl hk hx hy fb hfb
    cases k with
    | zero =>
      rw [pow_zero, one_mul] at hl
      subst hl
      rw [recursorAux_terminal] at hfb
      by_cases hcond : over = true ∨ x &&& ((2 ^ j <<< 1) - 1) ≠ 0 ∨
          y &&& ((2 ^ j <<< 1) - 1) ≠ 0
      · rw [if_pos hcond] at hfb
        simp only [List.mem_singleton] at hfb
        subst hfb
        refine ⟨rfl, hx, hy, le_refl _, le_refl _, le_refl _, le_refl _, rfl, ?_⟩
        intro hov hal
        rcases hcond with h | h | h
        · rw [hov] at h; exact absurd h (by simp)
        · exact (skipCond_iff j x).mp h hal.1
        · exact (skipCond_iff j y).mp h hal.2
      · rw [if_neg hcond] at hfb
        simp at hfb
    | succ k' =>
      have hfragpos : 0 < 2 ^ j := pow_pos two_pos j
      have hm : 2 ^ j ≤ 2 ^ k' * 2 ^ j := by
        calc 2 ^ j = 1 * 2 ^ j := (one_mul _).symm
        _ ≤ 2 ^ k' * 2 ^ j := Nat.mul_le_mul_right _ Nat.one_le_two_pow
      have hl2 : l = 2 * (2 ^ k' * 2 ^ j) := by rw [hl, pow_succ]; ring
      have hne : l ≠ 2 ^ j := by omega
      have hshift : l >>> 1 = 2 ^ k' * 2 ^ j := by
        rw [Nat.shiftRight_eq_div_pow, pow_one, hl2]
        omega
      by_cases ht : tact = true
      · rw [ht, recursorAux_cancelled F xs ys xu yu _ over fuel x y l hne] at hfb
        simp at hfb
      · have ht' : tact = false := by cases tact <;> simp_all
        subst ht'
        rw [recursorAux_subdivide F xs ys xu yu _ over fuel x y l hne, hshift] at hfb
        have hdd : (2 : ℕ) ^ j ∣ 2 ^ k' * 2 ^ j := dvd_mul_left _ _
        rcases List.mem_append.mp hfb with hfb3 | hD
        · rcases List.mem_append.mp hfb3 with hfb2 | hC
          · rcases List.mem_append.mp hfb2 with hA | hB
            · obtain ⟨c1, c2, c3, c4, c5, c6, c7, c8, c9⟩ :=
                ih k' x y _ rfl (by omega) hx hy fb hA
              exact ⟨c1, c2, c3, by omega, by omega, by omega, by omega, c8, c9⟩
            · obtain ⟨c1, c2, c3, c4, c5, c6, c7, c8, c9⟩ :=
                ih k' (x + 2 ^ k' * 2 ^ j) y _ rfl (by omega) (hx.add hdd) hy fb hB
              exact ⟨c1, c2, c3, by omega, by omega, by omega, by omega, c8, c9⟩
          · obtain ⟨c1, c2, c3, c4, c5, c6, c7, c8, c9⟩ :=
              ih k' (x + 2 ^ k' * 2 ^ j) (y + 2 ^ k' * 2 ^ j) _ rfl (by omega)
                (hx.add hdd) (hy.add hdd) fb hC
            exact ⟨c1, c2, c3, by omega, by omega, by omega, by omega, c8, c9⟩
        · obtain ⟨c1, c2, c3, c4, c5, c6, c7, c8, c9⟩ :=
            ih k' x (y + 2 ^ k' * 2 ^ j) _ rfl (by omega) hx (hy.add hdd) fb hD
          exact ⟨c1, c2, c3, by omega, by omega, by omega, by omega, c8, c9⟩

/-- Conversely, in an uncancelled `recursor` call every `frag`-aligned
pixel of the block whose terminal block passes the paint test (first pass,
or origin not aligned to the coarser grid) does get its fill emitted. -/
theorem recursorAux_mem_of (F : ℚ → ℚ → ℕ) (xs ys xu yu : ℚ)
    (frag j : ℕ) (hj : frag = 2 ^ j) (over : Bool) :
    ∀ (fuel k x y l : ℕ), l = 2 ^ k * frag → k < fuel → frag ∣ x → frag ∣ y →
      ∀ px py : ℕ, frag ∣ px → frag ∣ py →
        x ≤ px → px < x + l → y ≤ py → py < y + l →
        (over = true ∨ ¬ (2 * frag ∣ px) ∨ ¬ (2 * frag ∣ py)) →
        (⟨px, py, frag, evalPix F xs ys xu yu px py⟩ : Fill) ∈
          recursorAux F xs ys xu yu frag over false fuel x y l := by
  subst hj
  intro fuel
  induction fuel with
  | zero => intro k x y l _ hk; exact absurd hk (by omega)
  | succ fuel ih =>
    intro k x y l hl hk hx hy px py hpx hpy hx1 hx2 hy1 hy2 hcond
    cases k with
    | zero =>
      rw [pow_zero, one_mul] at hl
      subst hl
      have hxx : px = x := by
        have h0 : 2 ^ j ∣ px - x := Nat.dvd_sub' hpx hx
        have h1 : px - x < 2 ^ j := by omega
        have h2 := Nat.eq_zero_of_dvd_of_lt h0 h1
        omega
      have hyy : py = y := by
        have h0 : 2 ^ j ∣ py - y := Nat.dvd_sub' hpy hy
        have h1 : py - y < 2 ^ j := by omega
        have h2 := Nat.eq_zero_of_dvd_of_lt h0 h1
        omega
      subst hxx
      subst hyy
      rw [recursorAux_terminal]
      rw [if_pos ?_]
      · exact List.mem_singleton.mpr rfl
      · rcases hcond with h | h | h
        · exact Or.inl h
        · exact Or.inr (Or.inl ((skipCond_iff j px).mpr h))
        · exact Or.inr (Or.inr ((skipCond_iff j py).mpr h))
    | succ k' =>
      have hfragpos : 0 < 2 ^ j := pow_pos two_pos j
      have hm : 2 ^ j ≤ 2 ^ k' * 2 ^ j := by
        calc 2 ^ j = 1 * 2 ^ j := (one_mul _).symm
        _ ≤ 2 ^ k' * 2 ^ j := Nat.mul_le_mul_right _ Nat.one_le_two_pow
      have hl2 : l = 2 * (2 ^ k' * 2 ^ j) := by rw [hl, pow_succ]; ring
      have hne : l ≠ 2 ^ j := by omega
      have hshift : l >>> 1 = 2 ^ k' * 2 ^ j := by
        rw [Nat.shiftRight_eq_div_pow, pow_one, hl2]
        omega
      rw [recursorAux_subdivide F xs ys xu yu _ over fuel x y l hne, hshift]
      have hdd : (2 : ℕ) ^ j ∣ 2 ^ k' * 2 ^ j := dvd_mul_left _ _
      by_cases hqx : px < x + 2 ^ k' * 2 ^ j
      · by_cases hqy : py < y + 2 ^ k' * 2 ^ j
        · refine List.mem_append_left _ (List.mem_append_left _ (List.mem_append_left _ ?_))
          exact ih k' x y _ rfl (by omega) hx hy px py hpx hpy hx1 hqx hy1 hqy hcond
        · refine List.mem_append_right _ ?_
          exact ih k' x (y + 2 ^ k' * 2 ^ j) _ rfl (by omega) hx (hy.add hdd) px py hpx hpy
            hx1 hqx (by omega) (by omega) hcond
      · by_cases hqy : py < y + 2 ^ k' * 2 ^ j
        · refine List.mem_append_left _ (List.mem_append_left _ (List.mem_append_right _ ?_))
          exact ih k' (x + 2 ^ k' * 2 ^ j) y _ rfl (by omega) (hx.add hdd) hy px py hpx hpy
            (by omega) (by omega) hy1 hqy hcond
        · refine List.mem_append_left _ (List.mem_append_right _ ?_)
          exact ih k' (x + 2 ^ k' * 2 ^ j) (y + 2 ^ k' * 2 ^ j) _ rfl (by omega)
            (hx.add hdd) (hy.add hdd) px py hpx hpy (by omega) (by omega) (by omega)
            (by omega) hcond

/-! ### Helper lemmas: tiling -/

theorem mem_tilesAux (step : ℕ) (hstep : 1 ≤ step) :
    ∀ (fuel start stop : ℕ), stop ≤ start + fuel →
      ∀ a, a ∈ tilesAux fuel start stop step ↔ ∃ m, a = start + step * m ∧ a < stop := by
  intro fuel
  induction fuel with
  | zero =>
    intro start stop hfuel a
    simp only [tilesAux, List.not_mem_nil, false_iff]
    rintro ⟨m, rfl, hlt⟩
    have : 0 ≤ step * m := Nat.zero_le _
    omega
  | succ fuel ih =>
    intro start stop hfuel a
    simp only [tilesAux]
    by_cases hs : start < stop
    · rw [if_pos hs]
      simp only [List.mem_cons]
      rw [ih (start + step) stop (by omega) a]
      constructor
      · rintro (rfl | ⟨m, rfl, hm⟩)
        · exact ⟨0, by simp, hs⟩
        · exact ⟨m + 1, by rw [Nat.mul_succ]; omega, hm⟩
      · rintro ⟨m, rfl, hm⟩
        cases m with
        | zero => left; simp
        | succ m => right; exact ⟨m, by rw [Nat.mul_succ] at hm ⊢; omega, hm⟩
    · rw [if_neg hs]
      simp only [List.not_mem_nil, false_iff]
      rintro ⟨m, rfl, hlt⟩
      have : 0 ≤ step * m := Nat.zero_le _
      omega

theorem mem_tilesFrom (start stop step a : ℕ) (hstep : 1 ≤ step) :
    a ∈ tilesFrom start stop step ↔ ∃ m, a = start + step * m ∧ a < stop :=
  mem_tilesAux step hstep (stop - start) start stop (by omega) a

/-- A pixel strip membership: the pixel lies in the 16-wide band of some
tile origin of the pass tiling. -/
def inStrip (s e p : ℕ) : Prop :=
  ∃ t ∈ tilesFrom s e 16, t ≤ p ∧ p < t + 16

/-- Every pixel of the target interval is covered by a tile when the
interval origin is 16-aligned. -/
theorem inStrip_of_mem (s e p : ℕ) (hd : 16 ∣ s) (h1 : s ≤ p) (h2 : p < e) :
    inStrip s e p := by
  refine ⟨p - p % 16, ?_, by omega, by omega⟩
  rw [mem_tilesFrom _ _ _ _ (by norm_num)]
  exact ⟨(p - s) / 16, by omega, by omega⟩

/-- Tile origins are multiples of every power of two dividing both 16 and
the strip origin. -/
theorem tile_dvd (s e t frag : ℕ) (hfrag16 : frag ∣ 16) (hfs : frag ∣ s)
    (ht : t ∈ tilesFrom s e 16) : frag ∣ t := by
  rw [mem_tilesFrom _ _ _ _ (by norm_num)] at ht
  obtain ⟨m, rfl, _⟩ := ht
  exact hfs.add (Dvd.dvd.mul_right hfrag16 m)

/-! ### Helper lemmas: one refinement pass -/

theorem pow_le_sixteen_lt (k frag : ℕ) (hk : (16 : ℕ) = 2 ^ k * frag) : k < 16 := by
  have hdvd : (2 : ℕ) ^ k ∣ 16 := ⟨frag, hk⟩
  have hle : (2 : ℕ) ^ k ≤ 16 := Nat.le_of_dvd (by norm_num) hdvd
  by_contra hc
  push_neg at hc
  have h5 : (2 : ℕ) ^ 5 ≤ 2 ^ k := Nat.pow_le_pow_right (by norm_num) (by omega)
  norm_num at h5
  omega

/-- P1: every fill of a refinement pass has edge `frag`, a `frag`-aligned
origin, its own origin's `evalPix` color, and (outside the first pass)
fails the coarser-grid alignment test. -/
theorem viewPassFills_mem_spec (F : ℚ → ℚ → ℕ) (xs ys xu yu : ℚ)
    (frag j k : ℕ) (hj : frag = 2 ^ j) (hk : (16 : ℕ) = 2 ^ k * frag)
    (over tact : Bool) (xxs yys xxe yye : ℕ)
    (hxd : frag ∣ xxs) (hyd : frag ∣ yys) :
    ∀ fb ∈ viewPassFills F xs ys xu yu frag over tact xxs yys xxe yye,
      fb.l = frag ∧ frag ∣ fb.x ∧ frag ∣ fb.y ∧
      fb.color = evalPix F xs ys xu yu fb.x fb.y ∧
      (over = false → ¬ (2 * frag ∣ fb.x ∧ 2 * frag ∣ fb.y)) := by
  intro fb hfb
  rw [viewPassFills] at hfb
  rw [List.mem_flatMap] at hfb
  obtain ⟨ty, hty, hfb⟩ := hfb
  rw [List.mem_flatMap] at hfb
  obtain ⟨tx, htx, hfb⟩ := hfb
  have hfrag16 : frag ∣ 16 := ⟨2 ^ k, hk.trans (Nat.mul_comm _ _)⟩
  have hdx : frag ∣ tx := tile_dvd xxs xxe tx frag hfrag16 hxd htx
  have hdy : frag ∣ ty := tile_dvd yys yye ty frag hfrag16 hyd hty
  obtain ⟨c1, c2, c3, _, _, _, _, c8, c9⟩ :=
    recursorAux_mem_spec F xs ys xu yu frag j hj over tact 16 k tx ty 16 hk
      (pow_le_sixteen_lt k frag hk) hdx hdy fb hfb
  exact ⟨c1, c2, c3, c8, c9⟩

/-- P2: in an uncancelled pass, every `frag`-aligned pixel of the tiled
region whose terminal block passes the paint test gets a fill. -/
theorem viewPassFills_mem_of (F : ℚ → ℚ → ℕ) (xs ys xu yu : ℚ)
    (frag j k : ℕ) (hj : frag = 2 ^ j) (hk : (16 : ℕ) = 2 ^ k * frag)
    (over : Bool) (xxs yys xxe yye : ℕ)
    (hxd : frag ∣ xxs) (hyd : frag ∣ yys) (px py : ℕ)
    (hsx : inStrip xxs xxe px) (hsy : inStrip yys yye py)
    (hfx : frag ∣ px) (hfy : frag ∣ py)
    (hcond : over = true ∨ ¬ (2 * frag ∣ px) ∨ ¬ (2 * frag ∣ py)) :
    (⟨px, py, frag, evalPix F xs ys xu yu px py⟩ : Fill) ∈
      viewPassFills F xs ys xu yu frag over false xxs yys xxe yye := by
  obtain ⟨tx, htx, htx1, htx2⟩ := hsx
  obtain ⟨ty, hty, hty1, hty2⟩ := hsy
  have hfrag16 : frag ∣ 16 := ⟨2 ^ k, hk.trans (Nat.mul_comm _ _)⟩
  have hdx : frag ∣ tx := tile_dvd xxs xxe tx frag hfrag16 hxd htx
  have hdy : frag ∣ ty := tile_dvd yys yye ty frag hfrag16 hyd hty
  rw [viewPassFills, List.mem_flatMap]
  refine ⟨ty, hty, ?_⟩
  rw [List.mem_flatMap]
  refine ⟨tx, htx, ?_⟩
  exact recursorAux_mem_of F xs ys xu yu frag j hj over 16 k tx ty 16 hk
    (pow_le_sixteen_lt k frag hk) hdx hdy px py hfx hfy htx1 (by omega) hty1 (by omega) hcond

/-- P3: replaying one uncancelled pass on an image that is already correct
on the coarser grid makes it correct at every `frag`-aligned pixel of the
region. -/
theorem viewPass_correct (F : ℚ → ℚ → ℕ) (xs ys xu yu : ℚ)
    (frag j k : ℕ) (hj : frag = 2 ^ j) (hk : (16 : ℕ) = 2 ^ k * frag)
    (over : Bool) (xxs yys xxe yye : ℕ)
    (hxd : frag ∣ xxs) (hyd : frag ∣ yys) (img : Image)
    (hpre : over = false → ∀ qx qy, inStrip xxs xxe qx → inStrip yys yye qy →
      2 * frag ∣ qx → 2 * frag ∣ qy → img qx qy = evalPix F xs ys xu yu qx qy) :
    ∀ px py, inStrip xxs xxe px → inStrip yys yye py → frag ∣ px → frag ∣ py →
      applyFills img (viewPassFills F xs ys xu yu frag over false xxs yys xxe yye) px py =
        evalPix F xs ys xu yu px py := by
  intro px py hsx hsy hfx hfy
  have hfragpos : 0 < frag := by rw [hj]; exact pow_pos two_pos j
  have hspec := viewPassFills_mem_spec F xs ys xu yu frag j k hj hk over false
    xxs yys xxe yye hxd hyd
  refine applyFills_good (fun c => c = evalPix F xs ys xu yu px py) px py _ img
    (fun fb hfb => by rw [(hspec fb hfb).1]; omega) ?_ ?_
  · intro fb hfb hcov
    obtain ⟨c1, c2, c3, c8, _⟩ := hspec fb hfb
    rcases hcov with ⟨h1, h2, h3, h4⟩
    rw [c1] at h2 h4
    have hxx : fb.x = px := by
      have h0 : frag ∣ px - fb.x := Nat.dvd_sub' hfx c2
      have h2' := Nat.eq_zero_of_dvd_of_lt h0 (by omega)
      omega
    have hyy : fb.y = py := by
      have h0 : frag ∣ py - fb.y := Nat.dvd_sub' hfy c3
      have h2' := Nat.eq_zero_of_dvd_of_lt h0 (by omega)
      omega
    rw [c8, hxx, hyy]
  · by_cases hcond : over = true ∨ ¬ (2 * frag ∣ px) ∨ ¬ (2 * frag ∣ py)
    · right
      refine ⟨⟨px, py, frag, evalPix F xs ys xu yu px py⟩,
        viewPassFills_mem_of F xs ys xu yu frag j k hj hk over xxs yys xxe yye
          hxd hyd px py hsx hsy hfx hfy hcond, ?_⟩
      simp [coversP]
      omega
    · left
      push_neg at hcond
      obtain ⟨hov, hdx2, hdy2⟩ := hcond
      have hov' : over = false := by cases over <;> simp_all
      exact hpre hov' px py hsx hsy hdx2 hdy2

/-- The pass sequence of `view`: edge lengths 16, 8, 4, 2, 1 with the
first-pass flag set only initially. -/
theorem passesAux_sixteen :
    passesAux 16 16 true = [(16, true), (8, false), (4, false), (2, false), (1, false)] :=
  rfl

/-- The main pointwise correctness of an uncancelled full render on a
16-aligned target rectangle: every pixel of the rectangle ends with the
color of its own independent evaluation.  (The starting image is
arbitrary, so a fresh render also erases anything a previous — possibly
cancelled — render left behind.) -/
theorem view_pointwise (F : ℚ → ℚ → ℕ) (xs ys xu yu : ℚ) (img : Image)
    (xxs yys xxe yye px py : ℕ) (hxxs : 16 ∣ xxs) (hyys : 16 ∣ yys)
    (hx1 : xxs ≤ px) (hx2 : px < xxe) (hy1 : yys ≤ py) (hy2 : py < yye) :
    applyFills img (view F xs ys xu yu false xxs yys xxe yye) px py =
      F (xs + (px : ℚ) * xu) (ys + (py : ℚ) * yu) := by
  have hview : view F xs ys xu yu false xxs yys xxe yye =
      viewPassFills F xs ys xu yu 16 true false xxs yys xxe yye ++
      (viewPassFills F xs ys xu yu 8 false false xxs yys xxe yye ++
      (viewPassFills F xs ys xu yu 4 false false xxs yys xxe yye ++
      (viewPassFills F xs ys xu yu 2 false false xxs yys xxe yye ++
      (viewPassFills F xs ys xu yu 1 false false xxs yys xxe yye ++ [])))) := by
    rw [view, passesAux_sixteen]
    simp only [List.flatMap_cons, List.flatMap_nil]
  rw [hview]
  rw [applyFills_append, applyFills_append, applyFills_append, applyFills_append,
    applyFills_append]
  have hinv16 : ∀ qx qy, inStrip xxs xxe qx → inStrip yys yye qy → 16 ∣ qx → 16 ∣ qy →
      applyFills img (viewPassFills F xs ys xu yu 16 true false xxs yys xxe yye) qx qy =
        evalPix F xs ys xu yu qx qy :=
    viewPass_correct F xs ys xu yu 16 4 0 (by norm_num) (by norm_num) true
      xxs yys xxe yye hxxs hyys img (fun h => by simp at h)
  have hinv8 : ∀ qx qy, inStrip xxs xxe qx → inStrip yys yye qy → 8 ∣ qx → 8 ∣ qy →
      applyFills (applyFills img (viewPassFills F xs ys xu yu 16 true false xxs yys xxe yye))
          (viewPassFills F xs ys xu yu 8 false false xxs yys xxe yye) qx qy =
        evalPix F xs ys xu yu qx qy :=
    viewPass_correct F xs ys xu yu 8 3 1 (by norm_num) (by norm_num) false
      xxs yys xxe yye (dvd_trans (by norm_num) hxxs) (dvd_trans (by norm_num) hyys) _
      (fun _ qx qy hsx hsy h2x h2y =>
        hinv16 qx qy hsx hsy (by simpa using h2x) (by simpa using h2y))
  have hinv4 : ∀ qx qy, inStrip xxs xxe qx → inStrip yys yye qy → 4 ∣ qx → 4 ∣ qy →
      applyFills (applyFills (applyFills img
            (viewPassFills F xs ys xu yu 16 true false xxs yys xxe yye))
          (viewPassFills F xs ys xu yu 8 false false xxs yys xxe yye))
          (viewPassFills F xs ys xu yu 4 false false xxs yys xxe yye) qx qy =
        evalPix F xs ys xu yu qx qy :=
    viewPass_correct F xs ys xu yu 4 2 2 (by norm_num) (by norm_num) false
      xxs yys xxe yye (dvd_trans (by norm_num) hxxs) (dvd_trans (by norm_num) hyys) _
      (fun _ qx qy hsx hsy h2x h2y =>
        hinv8 qx qy hsx hsy (by simpa using h2x) (by simpa using h2y))
  have hinv2 : ∀ qx qy, inStrip xxs xxe qx → inStrip yys yye qy → 2 ∣ qx → 2 ∣ qy →
      applyFills (applyFills (applyFills (applyFills img
            (viewPassFills F xs ys xu yu 16 true false xxs yys xxe yye))
          (viewPassFills F xs ys xu yu 8 false false xxs yys xxe yye))
          (viewPassFills F xs ys xu yu 4 false false xxs yys xxe yye))
          (viewPassFills F xs ys xu yu 2 false false xxs yys xxe yye) qx qy =
        evalPix F xs ys xu yu qx qy :=
    viewPass_correct F xs ys xu yu 2 1 3 (by norm_num) (by norm_num) false
      xxs yys xxe yye (dvd_trans (by norm_num) hxxs) (dvd_trans (by norm_num) hyys) _
      (fun _ qx qy hsx hsy h2x h2y =>
        hinv4 qx qy hsx hsy (by simpa using h2x) (by simpa using h2y))
  have hinv1 : ∀ qx qy, inStrip xxs xxe qx → inStrip yys yye qy → 1 ∣ qx → 1 ∣ qy →
      applyFills (applyFills (applyFills (applyFills (applyFills img
            (viewPassFills F xs ys xu yu 16 true false xxs yys xxe yye))
          (viewPassFills F xs ys xu yu 8 false false xxs yys xxe yye))
          (viewPassFills F xs ys xu yu 4 false false xxs yys xxe yye))
          (viewPassFills F xs ys xu yu 2 false false xxs yys xxe yye))
          (viewPassFills F xs ys xu yu 1 false false xxs yys xxe yye) qx qy =
        evalPix F xs ys xu yu qx qy :=
    viewPass_correct F xs ys xu yu 1 0 4 (by norm_num) (by norm_num) false
      xxs yys xxe yye (one_dvd _) (one_dvd _) _
      (fun _ qx qy hsx hsy h2x h2y =>
        hinv2 qx qy hsx hsy (by simpa using h2x) (by simpa using h2y))
  have happ : applyFills (applyFills (applyFills (applyFills (applyFills img
        (viewPassFills F xs ys xu yu 16 true false xxs yys xxe yye))
      (viewPassFills F xs ys xu yu 8 false false xxs yys xxe yye))
      (viewPassFills F xs ys xu yu 4 false false xxs yys xxe yye))
      (viewPassFills F xs ys xu yu 2 false false xxs yys xxe yye))
      (viewPassFills F xs ys xu yu 1 false false xxs yys xxe yye) px py =
      evalPix F xs ys xu yu px py :=
    hinv1 px py (inStrip_of_mem xxs xxe px hxxs hx1 hx2)
      (inStrip_of_mem yys yye py hyys hy1 hy2) (one_dvd _) (one_dvd _)
  simpa [applyFills] using happ

/-- In a later (non-first) pass no fill covers a pixel whose coordinates
are both aligned to the coarser grid: the skip rule leaves such pixels
untouched. -/
theorem viewPassFills_no_cover (F : ℚ → ℚ → ℕ) (xs ys xu yu : ℚ)
    (frag j k : ℕ) (hj : frag = 2 ^ j) (hk : (16 : ℕ) = 2 ^ k * frag) (tact : Bool)
    (xxs yys xxe yye : ℕ) (hxd : frag ∣ xxs) (hyd : frag ∣ yys) (px py : ℕ)
    (h2x : 2 * frag ∣ px) (h2y : 2 * frag ∣ py) :
    ∀ fb ∈ viewPassFills F xs ys xu yu frag false tact xxs yys xxe yye,
      ¬ coversP fb px py := by
  intro fb hfb hcov
  have hfragpos : 0 < frag := by rw [hj]; exact pow_pos two_pos j
  obtain ⟨c1, c2, c3, _, c9⟩ := viewPassFills_mem_spec F xs ys xu yu frag j k hj hk
    false tact xxs yys xxe yye hxd hyd fb hfb
  rcases hcov with ⟨h1, h2, h3, h4⟩
  rw [c1] at h2 h4
  have hfx : frag ∣ px := dvd_trans (dvd_mul_left frag 2) h2x
  have hfy : frag ∣ py := dvd_trans (dvd_mul_left frag 2) h2y
  have hxx : fb.x = px := by
    have h0 : frag ∣ px - fb.x := Nat.dvd_sub' hfx c2
    have h2' := Nat.eq_zero_of_dvd_of_lt h0 (by omega)
    omega
  have hyy : fb.y = py := by
    have h0 : frag ∣ py - fb.y := Nat.dvd_sub' hfy c3
    have h2' := Nat.eq_zero_of_dvd_of_lt h0 (by omega)
    omega
  exact c9 rfl ⟨hxx ▸ h2x, hyy ▸ h2y⟩

/-- A sample evaluator distinguishing the plane points of pixel 8 and
pixel 16 (viewport `xs = ys = 0`, `xu = yu = 1`). -/
def demoEval : ℚ → ℚ → ℕ :=
  fun a _ => if a = 8 then 0 else 1

/-- C1 counterexample: on the pixel rectangle `[8,24) × [0,16)` — whose
origin is not 16-aligned — the full uncancelled refinement leaves pixel
`(16, 0)` with the color evaluated at pixel `(8, 0)`, not with its own
evaluation: the skip rule tests absolute alignment while the painted
blocks are tiled from the unaligned origin. -/
theorem view_misaligned_rect_wrong_pixel :
    applyFills (fun _ _ => 0) (view demoEval 0 0 1 1 false 8 0 24 16) 16 0 ≠
      evalPix demoEval 0 0 1 1 16 0 := by
  have hview : view demoEval 0 0 1 1 false 8 0 24 16 =
      viewPassFills demoEval 0 0 1 1 16 true false 8 0 24 16 ++
      (viewPassFills demoEval 0 0 1 1 8 false false 8 0 24 16 ++
      (viewPassFills demoEval 0 0 1 1 4 false false 8 0 24 16 ++
      (viewPassFills demoEval 0 0 1 1 2 false false 8 0 24 16 ++
      (viewPassFills demoEval 0 0 1 1 1 false false 8 0 24 16 ++ [])))) := by
    rw [view, passesAux_sixteen]
    simp only [List.flatMap_cons, List.flatMap_nil]
  rw [hview]
  rw [applyFills_append, applyFills_append, applyFills_append, applyFills_append,
    applyFills_append]
  have h16 : applyFills (fun _ _ => 0)
      (viewPassFills demoEval 0 0 1 1 16 true false 8 0 24 16) 16 0 =
      evalPix demoEval 0 0 1 1 8 0 := rfl
  have edge : ∀ (frag j k : ℕ), frag = 2 ^ j → (16 : ℕ) = 2 ^ k * frag → frag ∣ 8 →
      2 * frag ∣ 16 → ∀ img : Image,
      applyFills img (viewPassFills demoEval 0 0 1 1 frag false false 8 0 24 16) 16 0 =
        img 16 0 := by
    intro frag j k hj hk hd8 hd16 img
    refine applyFills_not_covered 16 0 _ img ?_ ?_
    · intro fb hfb
      have h := (viewPassFills_mem_spec demoEval 0 0 1 1 frag j k hj hk false false
        8 0 24 16 hd8 (dvd_zero _) fb hfb).1
      rw [h, hj]
      exact Nat.one_le_two_pow
    · exact viewPassFills_no_cover demoEval 0 0 1 1 frag j k hj hk false
        8 0 24 16 hd8 (dvd_zero _) 16 0 hd16 (dvd_zero _)
  have hnil : ∀ (img : Image), applyFills img [] = img := fun _ => rfl
  rw [hnil]
  rw [edge 1 0 4 (by norm_num) (by norm_num) (by norm_num) (by norm_num)]
  rw [edge 2 1 3 (by norm_num) (by norm_num) (by norm_num) (by norm_num)]
  rw [edge 4 2 2 (by norm_num) (by norm_num) (by norm_num) (by norm_num)]
  rw [edge 8 3 1 (by norm_num) (by norm_num) (by norm_num) (by norm_num)]
  rw [h16]
  norm_num [evalPix, demoEval]

/-- C1 (amended): for every pixel rectangle whose origin coordinates are
multiples of 16 (as at every call site of `view`) and every evaluator,
running the rasterizer through all passes (edge 16, 8, 4, 2, 1) with no
cancellation gives every pixel of the rectangle exactly the color
`evaluate(pixelToPlane(px, py))`, independently of the starting image. -/
theorem view_refines_pointwise_eval (F : ℚ → ℚ → ℕ) (xs ys xu yu : ℚ) (img : Image)
    (xxs yys xxe yye px py : ℕ) (hxxs : 16 ∣ xxs) (hyys : 16 ∣ yys)
    (hx1 : xxs ≤ px) (hx2 : px < xxe) (hy1 : yys ≤ py) (hy2 : py < yye) :
    applyFills img (view F xs ys xu yu false xxs yys xxe yye) px py =
      F (xs + (px : ℚ) * xu) (ys + (py : ℚ) * yu) :=
  view_pointwise F xs ys xu yu img xxs yys xxe yye px py hxxs hyys hx1 hx2 hy1 hy2

/-- C1 witness: the refinement theorem applied to a concrete 16 × 16
render at pixel `(3, 5)` with a constant evaluator. -/
theorem view_refines_pointwise_eval_witness :
    applyFills (fun _ _ => 0) (view (fun _ _ => 7) 0 0 1 1 false 0 0 16 16) 3 5 = 7 :=
  view_refines_pointwise_eval (fun _ _ => 7) 0 0 1 1 (fun _ _ => 0) 0 0 16 16 3 5
    (by norm_num) (by norm_num) (by norm_num) (by norm_num) (by norm_num) (by norm_num)

/-- C2: at a terminal call (block edge equals `frag_size = 2^j`) the
block is painted iff this is the first pass (`over`) or at least one of
its origin coordinates is not divisible by twice the edge length; in the
first pass it is painted unconditionally. -/
theorem recursor_skip_rule (F : ℚ → ℚ → ℕ) (xs ys xu yu : ℚ) (j : ℕ)
    (over tact : Bool) (fuel x y : ℕ) :
    recursorAux F xs ys xu yu (2 ^ j) over tact (fuel + 1) x y (2 ^ j) =
      if over = true ∨ ¬ (2 * 2 ^ j ∣ x) ∨ ¬ (2 * 2 ^ j ∣ y) then
        [⟨x, y, 2 ^ j, F (xs + (x : ℚ) * xu) (ys + (y : ℚ) * yu)⟩]
      else [] := by
  rw [recursorAux_terminal]
  by_cases h : over = true ∨ ¬ (2 * 2 ^ j ∣ x) ∨ ¬ (2 * 2 ^ j ∣ y)
  · rw [if_pos h, if_pos ?_]
    rcases h with h | h | h
    · exact Or.inl h
    · exact Or.inr (Or.inl ((skipCond_iff j x).mpr h))
    · exact Or.inr (Or.inr ((skipCond_iff j y).mpr h))
  · rw [if_neg ?_, if_neg h]
    push_neg at h
    obtain ⟨h1, h2, h3⟩ := h
    rintro (hc | hc | hc)
    · exact absurd hc h1
    · exact (skipCond_iff j x).mp hc h2
    · exact (skipCond_iff j y).mp hc h3

/-- Every fill any `recursor` call ever emits has the terminal edge
length `frag_size`, whatever the block, fuel or flags. -/
theorem recursorAux_fill_edge (F : ℚ → ℚ → ℕ) (xs ys xu yu : ℚ)
    (frag : ℕ) (over tact : Bool) :
    ∀ (fuel x y l : ℕ), ∀ fb ∈ recursorAux F xs ys xu yu frag over tact fuel x y l,
      fb.l = frag := by
  intro fuel
  induction fuel with
  | zero => intro x y l fb hfb; simp [recursorAux] at hfb
  | succ fuel ih =>
    intro x y l fb hfb
    by_cases hl : l = frag
    · subst hl
      rw [recursorAux_terminal] at hfb
      by_cases hcond : over = true ∨ x &&& ((l <<< 1) - 1) ≠ 0 ∨ y &&& ((l <<< 1) - 1) ≠ 0
      · rw [if_pos hcond] at hfb
        simp only [List.mem_singleton] at hfb
        subst hfb
        rfl
      · rw [if_neg hcond] at hfb
        simp at hfb
    · by_cases ht : tact = true
      · rw [ht, recursorAux_cancelled F xs ys xu yu frag over fuel x y l hl] at hfb
        simp at hfb
      · have ht' : tact = false := by cases tact <;> simp_all
        subst ht'
        rw [recursorAux_subdivide F xs ys xu yu frag over fuel x y l hl] at hfb
        rcases List.mem_append.mp hfb with h3 | hD
        · rcases List.mem_append.mp h3 with h2 | hC
          · rcases List.mem_append.mp h2 with hA | hB
            · exact ih _ _ _ fb hA
            · exact ih _ _ _ fb hB
          · exact ih _ _ _ fb hC
        · exact ih _ _ _ fb hD

/-- C8 (as claimed): (i) a `recursor` call that reaches a non-terminal
subdivision step with the cancel flag set performs no fills at all;
(ii) every fill any call performs is one whole terminal block painted in
a single `rectfill`; (iii) a fresh uncancelled render on a 16-aligned
rectangle after a cancelled one repaints every pixel of the rectangle
with its correct color — the pass sequence restarts from the coarsest
edge with no resume state. -/
theorem rasterizer_cancellation_safe :
    (∀ (F : ℚ → ℚ → ℕ) (xs ys xu yu : ℚ) (frag : ℕ) (over : Bool) (fuel x y l : ℕ),
       l ≠ frag →
       recursorAux F xs ys xu yu frag over true (fuel + 1) x y l = []) ∧
    (∀ (F : ℚ → ℚ → ℕ) (xs ys xu yu : ℚ) (frag : ℕ) (over tact : Bool)
       (fuel x y l : ℕ), ∀ fb ∈ recursorAux F xs ys xu yu frag over tact fuel x y l,
       fb.l = frag) ∧
    (∀ (F : ℚ → ℚ → ℕ) (xs ys xu yu : ℚ) (img : Image) (xxs yys xxe yye px py : ℕ),
       16 ∣ xxs → 16 ∣ yys → xxs ≤ px → px < xxe → yys ≤ py → py < yye →
       applyFills (applyFills img (view F xs ys xu yu true xxs yys xxe yye))
           (view F xs ys xu yu false xxs yys xxe yye) px py =
         F (xs + (px : ℚ) * xu) (ys + (py : ℚ) * yu)) := by
  refine ⟨?_, ?_, ?_⟩
  · intro F xs ys xu yu frag over fuel x y l hne
    exact recursorAux_cancelled F xs ys xu yu frag over fuel x y l hne
  · intro F xs ys xu yu frag over tact fuel x y l
    exact recursorAux_fill_edge F xs ys xu yu frag over tact fuel x y l
  · intro F xs ys xu yu img xxs yys xxe yye px py hxxs hyys hx1 hx2 hy1 hy2
    exact view_pointwise F xs ys xu yu _ xxs yys xxe yye px py hxxs hyys hx1 hx2 hy1 hy2

/-- C8 witness: a cancelled non-terminal call on the 16-block at the
origin with `frag_size = 8` emits nothing, its fills (all none) have
edge 8, and a fresh 16 × 16 render after a cancelled one ends with pixel
`(3, 5)` holding the evaluator's color. -/
theorem rasterizer_cancellation_safe_witness :
    recursorAux (fun _ _ => (7 : ℕ)) 0 0 1 1 8 false true 16 0 0 16 = [] ∧
    (∀ fb ∈ recursorAux (fun _ _ => (7 : ℕ)) 0 0 1 1 8 false true 16 0 0 16,
      fb.l = 8) ∧
    applyFills (applyFills (fun _ _ => 0)
        (view (fun _ _ => (7 : ℕ)) 0 0 1 1 true 0 0 16 16))
        (view (fun _ _ => (7 : ℕ)) 0 0 1 1 false 0 0 16 16) 3 5 = 7 :=
  ⟨rasterizer_cancellation_safe.1 (fun _ _ => 7) 0 0 1 1 8 false 15 0 0 16 (by decide),
   rasterizer_cancellation_safe.2.1 (fun _ _ => 7) 0 0 1 1 8 false true 16 0 0 16,
   rasterizer_cancellation_safe.2.2 (fun _ _ => 7) 0 0 1 1 (fun _ _ => 0) 0 0 16 16 3 5
     (by decide) (by decide) (by decide) (by decide) (by decide) (by decide)⟩

set_option maxRecDepth 8000 in
/-- C10 counterexample: in a full uncancelled 16 × 16 render the terminal
block with origin `(0, 0)` of the edge-8 pass is reached but never
filled (both origin coordinates are divisible by 16), so it is not the
case that a terminal block reached in any pass is always filled. -/
theorem view_skips_aligned_terminal_block :
    (view (fun _ _ => (7 : ℕ)) 0 0 1 1 false 0 0 16 16).all
      (fun fb => !(fb.l == 8 && fb.x == 0 && fb.y == 0)) = true := by
  decide

/-- C10 (amended): the cancel flag is consulted only before a
quarter-subdivision: (i) a terminal call paints or skips identically for
any value of the flag; (ii) the whole first (coarsest, edge-16) pass is
the same fill sequence whether or not the flag is set — cancellation can
never prevent or interrupt painting during the coarsest pass; (iii) in
the first pass every tile of the target rectangle is filled.  (In later
passes a reached terminal block is filled or skipped by the skip rule
alone, never by the cancel flag.) -/
theorem first_pass_completes_despite_cancel :
    (∀ (F : ℚ → ℚ → ℕ) (xs ys xu yu : ℚ) (frag : ℕ) (over t1 t2 : Bool)
       (fuel x y : ℕ),
       recursorAux F xs ys xu yu frag over t1 (fuel + 1) x y frag =
         recursorAux F xs ys xu yu frag over t2 (fuel + 1) x y frag) ∧
    (∀ (F : ℚ → ℚ → ℕ) (xs ys xu yu : ℚ) (tact : Bool) (xxs yys xxe yye : ℕ),
       viewPassFills F xs ys xu yu 16 true tact xxs yys xxe yye =
         viewPassFills F xs ys xu yu 16 true false xxs yys xxe yye) ∧
    (∀ (F : ℚ → ℚ → ℕ) (xs ys xu yu : ℚ) (tact : Bool) (xxs yys xxe yye tx ty : ℕ),
       tx ∈ tilesFrom xxs xxe 16 → ty ∈ tilesFrom yys yye 16 →
       (⟨tx, ty, 16, F (xs + (tx : ℚ) * xu) (ys + (ty : ℚ) * yu)⟩ : Fill) ∈
         viewPassFills F xs ys xu yu 16 true tact xxs yys xxe yye) := by
  have hterm : ∀ (F : ℚ → ℚ → ℕ) (xs ys xu yu : ℚ) (frag : ℕ) (over t1 t2 : Bool)
      (fuel x y : ℕ),
      recursorAux F xs ys xu yu frag over t1 (fuel + 1) x y frag =
        recursorAux F xs ys xu yu frag over t2 (fuel + 1) x y frag := by
    intro F xs ys xu yu frag over t1 t2 fuel x y
    rw [recursorAux_terminal, recursorAux_terminal]
  have hcongr : ∀ {α β : Type} (l : List α) (f g : α → List β),
      (∀ a ∈ l, f a = g a) → l.flatMap f = l.flatMap g := by
    intro α β l f g h
    induction l with
    | nil => rfl
    | cons a l ih =>
      simp only [List.flatMap_cons]
      rw [h a (by simp), ih (fun b hb => h b (by simp [hb]))]
  refine ⟨hterm, ?_, ?_⟩
  · intro F xs ys xu yu tact xxs yys xxe yye
    rw [viewPassFills, viewPassFills]
    refine hcongr _ _ _ (fun y _ => ?_)
    refine hcongr _ _ _ (fun x _ => ?_)
    exact hterm F xs ys xu yu 16 true tact false 15 x y
  · intro F xs ys xu yu tact xxs yys xxe yye tx ty htx hty
    rw [viewPassFills, List.mem_flatMap]
    refine ⟨ty, hty, ?_⟩
    rw [List.mem_flatMap]
    refine ⟨tx, htx, ?_⟩
    have h : recursorAux F xs ys xu yu 16 true tact 16 tx ty 16 =
        [⟨tx, ty, 16, F (xs + (tx : ℚ) * xu) (ys + (ty : ℚ) * yu)⟩] := by
      have h2 := recursorAux_terminal F xs ys xu yu 16 true tact 15 tx ty
      rw [if_pos (Or.inl rfl)] at h2
      exact h2
    show _ ∈ recursorAux F xs ys xu yu 16 true tact 16 tx ty 16
    rw [h]
    exact List.mem_singleton.mpr rfl

/-- C10 witness: the amended theorem applied concretely — a terminal
edge-8 call at `(8, 0)` is the same with and without the cancel flag, a
concrete first pass matches its uncancelled version, and tile `(0, 0)` of
a cancelled 16 × 16 first pass is filled. -/
theorem first_pass_completes_despite_cancel_witness :
    recursorAux (fun _ _ => (7 : ℕ)) 0 0 1 1 8 false true 1 8 0 8 =
      recursorAux (fun _ _ => (7 : ℕ)) 0 0 1 1 8 false false 1 8 0 8 ∧
    viewPassFills (fun _ _ => (7 : ℕ)) 0 0 1 1 16 true true 0 0 16 16 =
      viewPassFills (fun _ _ => (7 : ℕ)) 0 0 1 1 16 true false 0 0 16 16 ∧
    (⟨0, 0, 16, 7⟩ : Fill) ∈
      viewPassFills (fun _ _ => (7 : ℕ)) 0 0 1 1 16 true true 0 0 16 16 :=
  ⟨first_pass_completes_despite_cancel.1 (fun _ _ => 7) 0 0 1 1 8 false true false 0 8 0,
   first_pass_completes_despite_cancel.2.1 (fun _ _ => 7) 0 0 1 1 true 0 0 16 16,
   first_pass_completes_despite_cancel.2.2 (fun _ _ => 7) 0 0 1 1 true 0 0 16 16 0 0
     (by decide) (by decide)⟩

/-! ### Helper lemmas: palette rotation -/

/-- The pure cyclic left shift: the effect of the FIRST tick of a
backward invocation (whose saved triple still equals the current entry
0), and the mathematical inverse of a `rot_forward_pal` tick. -/
def palShiftLeft : List RGB → List RGB
  | [] => []
  | a :: l => l ++ [a]

theorem palShiftLeft_eq_rotate (p : List RGB) : palShiftLeft p = p.rotate 1 := by
  cases p with
  | nil => rfl
  | cons a l => rw [palShiftLeft, List.rotate_cons_succ, List.rotate_zero]

theorem palShiftLeft_iter (n : ℕ) (p : List RGB) :
    palShiftLeft^[n] p = p.rotate n := by
  induction n generalizing p with
  | zero => simp
  | succ n ih =>
    rw [Function.iterate_succ_apply, palShiftLeft_eq_rotate, ih, List.rotate_rotate]
    congr 1
    omega

theorem rot_forward_shiftLeft (p : List RGB) :
    rot_forward_pal (palShiftLeft p) = p := by
  cases p with
  | nil => rfl
  | cons a l =>
    show rot_forward_pal (l ++ [a]) = a :: l
    rw [rot_forward_pal, List.getLast?_concat, List.dropLast_concat]

theorem palShiftLeft_forward (p : List RGB) :
    palShiftLeft (rot_forward_pal p) = p := by
  cases p with
  | nil => rfl
  | cons a l =>
    rw [rot_forward_pal, List.getLast?_eq_getLast (a :: l) (by simp),
      palShiftLeft, List.dropLast_append_getLast]

theorem rot_forward_cancel_iter (n : ℕ) :
    ∀ p : List RGB, rot_forward_pal^[n] (palShiftLeft^[n] p) = p := by
  induction n with
  | zero => intro p; rfl
  | succ n ih =>
    intro p
    rw [Function.iterate_succ_apply' palShiftLeft n p,
      Function.iterate_succ_apply rot_forward_pal n,
      rot_forward_shiftLeft, ih]

/-- 256 forward ticks are the identity on any 256-entry table (the
forward loop refreshes its save each tick, so every tick is a true
cyclic rotation). -/
theorem rot_forward_iter_id (p : List RGB) (hp : p.length = 256) :
    rot_forward_pal^[256] p = p := by
  have hS : palShiftLeft^[256] p = p := by
    rw [palShiftLeft_iter, ← hp, List.rotate_length]
  conv_lhs => rw [← hS]
  exact rot_forward_cancel_iter 256 p

/-- The first backward tick of a fresh invocation is the pure left
shift: the saved triple still equals the current entry 0. -/
theorem rot_backward_pal_one (p : List RGB) :
    rot_backward_pal 1 p = palShiftLeft p := by
  cases p with
  | nil => rfl
  | cons a l => rfl

/-- `n` stale backward ticks consume the first `n` entries and pile up
`n` copies of the invocation-saved triple at the tail. -/
theorem rot_backward_tick_iter (s : RGB) :
    ∀ (n : ℕ) (p : List RGB), n ≤ p.length →
      (rot_backward_tick s)^[n] p = p.drop n ++ List.replicate n s := by
  intro n
  induction n with
  | zero => intro p _; simp
  | succ n ih =>
    intro p hp
    cases p with
    | nil => simp at hp
    | cons a l =>
      rw [Function.iterate_succ_apply]
      have h1 : rot_backward_tick s (a :: l) = l ++ [s] := rfl
      rw [h1, ih (l ++ [s]) (by simp at hp ⊢; omega)]
      rw [List.drop_append_of_le_length (by simp at hp ⊢; omega)]
      rw [List.drop_succ_cons, List.append_assoc]
      congr 1

/-- After a full 256 backward ticks within one invocation, a 256-entry
table consists of 256 copies of the original entry 0. -/
theorem rot_backward_pal_full (a : RGB) (l : List RGB)
    (h : (a :: l).length = 256) :
    rot_backward_pal 256 (a :: l) = List.replicate 256 a := by
  show (rot_backward_tick a)^[256] (a :: l) = List.replicate 256 a
  rw [rot_backward_tick_iter a 256 (a :: l) (by omega)]
  rw [List.drop_eq_nil_of_le (by omega), List.nil_append]

/-- A concrete 256-entry palette whose entry 1 differs from entry 0. -/
def testPal : List RGB :=
  ⟨0, 0, 0⟩ :: ((List.range 255).map fun i => ⟨i + 1, 0, 0⟩)

/-- C7 (the code at the failing input): forward rotation is a true
cyclic shift — 256 forward ticks reproduce a 256-entry table, and one
forward tick followed by the first backward tick of a fresh invocation
is the identity — but `rot_backward_pal` reads its wrap-around triple
from `pal[0]` once per invocation and never refreshes it inside its tick
loop, so 256 backward ticks within one invocation turn the table into
256 copies of the original entry 0 instead of restoring it. -/
theorem palette_backward_rotation_stale :
    rot_forward_pal^[256] testPal = testPal ∧
    (∀ p : List RGB, rot_backward_pal 1 (rot_forward_pal p) = p) ∧
    rot_backward_pal 256 testPal = List.replicate 256 ⟨0, 0, 0⟩ ∧
    rot_backward_pal 256 testPal ≠ testPal := by
  have hlen : testPal.length = 256 := by
    simp [testPal]
  have h3 : rot_backward_pal 256 testPal = List.replicate 256 ⟨0, 0, 0⟩ :=
    rot_backward_pal_full ⟨0, 0, 0⟩ ((List.range 255).map fun i => ⟨i + 1, 0, 0⟩) hlen
  refine ⟨rot_forward_iter_id testPal hlen, ?_, h3, ?_⟩
  · intro p
    rw [rot_backward_pal_one]
    exact palShiftLeft_forward p
  · rw [h3]
    decide


/-! ### Helper lemmas: orbit tracer steps -/

theorem orbitPrimeGo_succ_of_escape (cx cy X Y : ℚ) (fuel itr : ℕ)
    (h : ¬ X * X + Y * Y ≤ 4) :
    orbitPrimeGo cx cy (fuel + 1) X Y itr = itr := by
  simp [orbitPrimeGo, h]

theorem orbitPrimeGo_succ_of_cont (cx cy X Y : ℚ) (fuel itr : ℕ)
    (h : X * X + Y * Y ≤ 4) (hi : itr + 1 < orbit_iter_limit) :
    orbitPrimeGo cx cy (fuel + 1) X Y itr =
      orbitPrimeGo cx cy fuel (X * X - Y * Y + cx) (2 * X * Y + cy) (itr + 1) := by
  simp [orbitPrimeGo, h, hi]

theorem orbitColsGo_succ_of_escape (gradient : Bool) (cx cy X Y : ℚ) (itr fuel i : ℕ)
    (h : ¬ X * X + Y * Y ≤ 4) :
    orbitColsGo gradient cx cy itr (fuel + 1) X Y i = [] := by
  simp [orbitColsGo, h]

theorem orbitColsGo_succ_of_cont (gradient : Bool) (cx cy X Y : ℚ) (itr fuel i : ℕ)
    (h : X * X + Y * Y ≤ 4) (hi : i + 1 < orbit_iter_limit) :
    orbitColsGo gradient cx cy itr (fuel + 1) X Y i =
      (if gradient then ((i + 1) <<< 8) / itr else 0xFF) ::
        orbitColsGo gradient cx cy itr fuel (X * X - Y * Y + cx) (2 * X * Y + cy)
          (i + 1) := by
  simp [orbitColsGo, h, hi]

/-- The priming pass of the orbit tracer measures `itr = 1` for the
parameter `(2, 0)`: the start point sits exactly on the escape radius and
the first update leaves it. -/
theorem orbitPrime_two : orbitPrime 2 0 = 1 := by
  have h1 : orbitPrime 2 0 = orbitPrimeGo 2 0 (4094 + 1) 2 0 0 := rfl
  rw [h1, orbitPrimeGo_succ_of_cont 2 0 2 0 4094 0 (by norm_num)
    (by norm_num [orbit_iter_limit])]
  have h2 : (2 : ℚ) * 2 - 0 * 0 + 2 = 6 := by norm_num
  have h3 : (2 : ℚ) * 2 * 0 + 0 = 0 := by norm_num
  rw [h2, h3]
  have h4 : orbitPrimeGo 2 0 4094 6 0 1 = orbitPrimeGo 2 0 (4093 + 1) 6 0 1 := rfl
  rw [h4, orbitPrimeGo_succ_of_escape 2 0 6 0 4093 1 (by norm_num)]

/-- C9 (the code at the failing input): with the gradient enabled, the
orbit tracer for parameter `(2, 0)` — whose priming pass measures
`itr = 1` — hands the display primitives exactly one color index, and it
is `(1 << 8) / 1 = 256`, one past the valid palette range 0–255. -/
theorem orbit_gradient_color_overflow :
    orbitColors true 2 0 = [256] ∧ ¬ 256 ≤ 255 := by
  constructor
  · have h1 : orbitColors true 2 0 =
        orbitColsGo true 2 0 (orbitPrime 2 0) (4094 + 1) 2 0 0 := rfl
    rw [h1, orbitPrime_two, orbitColsGo_succ_of_cont true 2 0 2 0 1 4094 0
      (by norm_num) (by norm_num [orbit_iter_limit])]
    have h2 : (2 : ℚ) * 2 - 0 * 0 + 2 = 6 := by norm_num
    have h3 : (2 : ℚ) * 2 * 0 + 0 = 0 := by norm_num
    rw [h2, h3]
    have h4 : orbitColsGo true 2 0 1 4094 6 0 1 =
        orbitColsGo true 2 0 1 (4093 + 1) 6 0 1 := rfl
    rw [h4, orbitColsGo_succ_of_escape true 2 0 6 0 1 4093 1 (by norm_num)]
    norm_num [Nat.shiftLeft_eq]
  · norm_num
